import Mathlib

/-!
Verification of the snapshot-and-upload pipeline of `k8s-backup-tool`
(`main.go`): the per-object sanitization policy (`cleanResource` and its
helpers `removeAnnotations`, `removeLabels`, `removeEmptyFields`), the
per-object write loop, the namespace walk's directory-creation handling,
the ZIP packaging (`ZipDirectory`) and the pre-authenticated-request upload
(`UploadUsingPAR`).

Kubernetes objects are semi-structured values (`unstructured.Unstructured`
wraps a `map[string]interface{}`).  They are embedded here as a recursive
JSON-like value type; Go maps are represented as association lists whose
entry order is irrelevant to the Go original (a Go map is unordered), and
every operation below preserves the order of untouched entries, so list
equality is a sound refinement of Go map equality.

The `k8s.io/apimachinery` helpers called by the source
(`unstructured.RemoveNestedField`, `Unstructured.GetAnnotations` /
`SetAnnotations` / `GetLabels` / `SetLabels`, `unstructured.NestedFieldNoCopy`)
are embedded with their library semantics: a getter that reaches a missing
field or a non-map intermediate yields nothing; `GetAnnotations` returns nil
unless the field is a mapping whose values are all strings (in which case it
returns a string-map copy); `SetAnnotations nil` removes the field.
-/

namespace K8sBackup

/-- A semi-structured JSON-like value: the shape of a captured Kubernetes
object as returned by the dynamic client. -/
inductive JValue where
  | null : JValue
  | boolVal : Bool → JValue
  | num : Int → JValue
  | str : String → JValue
  | arr : List JValue → JValue
  | obj : List (String × JValue) → JValue
deriving Repr

/-- A Go `map[string]interface{}`, as an association list. -/
abbrev JObj := List (String × JValue)

/-- Go map indexing `m[k]` (first matching entry). -/
def lookupKey : JObj → String → Option JValue
  | [], _ => none
  | (k', v) :: rest, k => if k' = k then some v else lookupKey rest k

/-- Go `delete(m, k)`. -/
def eraseKey : JObj → String → JObj
  | [], _ => []
  | (k', v) :: rest, k =>
    if k' = k then eraseKey rest k else (k', v) :: eraseKey rest k

/-- Go map assignment `m[k] = v`. -/
def setKey : JObj → String → JValue → JObj
  | [], k, v => [(k, v)]
  | (k', w) :: rest, k, v =>
    if k' = k then (k, v) :: rest else (k', w) :: setKey rest k v

/-- Sequential `delete(m, k)` over a list of keys, as in the loops of
`removeAnnotations` / `removeLabels` (main.go:303-305, 312-314). -/
def eraseKeys (m : JObj) : List String → JObj
  | [] => m
  | k :: ks => eraseKeys (eraseKey m k) ks

/-- The value reached by walking a field path through nested mappings:
`unstructured.NestedFieldNoCopy` collapsed to an `Option` (missing field and
non-map intermediate both yield `none`, exactly how every call site in
main.go consumes it). -/
def getNested (x : JObj) : List String → Option JValue
  | [] => none
  | f :: fs =>
    match fs, lookupKey x f with
    | [], r => r
    | _ :: _, some (JValue.obj m) => getNested m fs
    | _ :: _, _ => none

/-- `unstructured.RemoveNestedField(x, fields...)`: walk the leading fields
while they are mappings (stopping silently otherwise) and delete the final
key from the mapping reached. -/
def removeNestedField (x : JObj) : List String → JObj
  | [] => x
  | [f] => eraseKey x f
  | f :: fs =>
    match lookupKey x f with
    | some (JValue.obj m) => setKey x f (JValue.obj (removeNestedField m fs))
    | _ => x

/-- Check that every value of a mapping is a string, as
`unstructured.NestedStringMap` does when converting to `map[string]string`. -/
def allStringValues : JObj → Bool
  | [] => true
  | (_, JValue.str _) :: rest => allStringValues rest
  | _ => false

/-- `unstructured.NestedStringMap(x, f1, f2)` as consumed by
`GetAnnotations` / `GetLabels`: `some` of the mapping exactly when the path
reaches a mapping all of whose values are strings; `none` on a missing
field, a non-map intermediate, a non-map value, or a non-string map value
(found/error are collapsed since the callers drop both). -/
def nestedStringMap (x : JObj) (f1 f2 : String) : Option JObj :=
  match lookupKey x f1 with
  | some (JValue.obj m) =>
    match lookupKey m f2 with
    | some (JValue.obj a) => if allStringValues a then some a else none
    | _ => none
  | _ => none

/-- `unstructured.SetNestedStringMap(x, a, f1, f2)` as called by
`SetAnnotations` / `SetLabels` with a non-nil map: descend through `f1`
(creating it when absent, silently failing when it holds a non-map) and
assign the string map at `f2`. -/
def setNestedStringMap (x : JObj) (f1 f2 : String) (a : JObj) : JObj :=
  match lookupKey x f1 with
  | some (JValue.obj m) => setKey x f1 (JValue.obj (setKey m f2 (JValue.obj a)))
  | none => setKey x f1 (JValue.obj [(f2, JValue.obj a)])
  | some _ => x

/-- Common body of `removeAnnotations` (main.go:301-307) and `removeLabels`
(main.go:310-316): `m := resource.Get…()`, delete the listed keys from the
returned string-map copy, `resource.Set…(m)`.  When the getter returns nil
(field absent, or not an all-string mapping), the setter removes the field
(`SetAnnotations(nil)` calls `RemoveNestedField`). -/
def removeMapKeys (x : JObj) (fld : String) (keys : List String) : JObj :=
  match nestedStringMap x "metadata" fld with
  | some a => setNestedStringMap x "metadata" fld (eraseKeys a keys)
  | none => removeNestedField x ["metadata", fld]

/-- `removeAnnotations` from main.go:301-307. -/
def removeAnnotations (x : JObj) (keys : List String) : JObj :=
  removeMapKeys x "annotations" keys

/-- `removeLabels` from main.go:310-316. -/
def removeLabels (x : JObj) (keys : List String) : JObj :=
  removeMapKeys x "labels" keys

/-- One iteration of `removeEmptyFields` (main.go:319-327): if the field
path reaches an empty mapping, remove it.  The path argument is the Go
dotted string already split on `.`. -/
def removeEmptyField (x : JObj) (path : List String) : JObj :=
  match getNested x path with
  | some (JValue.obj []) => removeNestedField x path
  | _ => x

/-- `removeEmptyFields` from main.go:319-327. -/
def removeEmptyFields (x : JObj) (paths : List (List String)) : JObj :=
  paths.foldl removeEmptyField x

/-- The annotation keys blocked by `cleanResource` (main.go:283-288). -/
def blockedAnnotationKeys : List String :=
  ["objectset.rio.cattle.io/applied", "objectset.rio.cattle.io/id",
   "objectset.rio.cattle.io/hash", "cattle.io.timestamp"]

/-- The label keys blocked by `cleanResource` (main.go:289-291). -/
def blockedLabelKeys : List String :=
  ["objectset.rio.cattle.io/hash"]

/-- The field paths removed unconditionally by `cleanResource`
(main.go:274-280). -/
def blockedFieldPaths : List (List String) :=
  [["metadata", "resourceVersion"], ["metadata", "uid"],
   ["metadata", "selfLink"], ["metadata", "creationTimestamp"],
   ["metadata", "generation"], ["status"], ["metadata", "managedFields"]]

/-- `cleanResource` from main.go:272-298, step for step and in source
order: the seven `RemoveNestedField` calls, then `removeAnnotations`,
`removeLabels`, and `removeEmptyFields` on `metadata.annotations` and
`metadata.labels`. -/
def cleanResource (x : JObj) : JObj :=
  let x1 := removeNestedField x ["metadata", "resourceVersion"]
  let x2 := removeNestedField x1 ["metadata", "uid"]
  let x3 := removeNestedField x2 ["metadata", "selfLink"]
  let x4 := removeNestedField x3 ["metadata", "creationTimestamp"]
  let x5 := removeNestedField x4 ["metadata", "generation"]
  let x6 := removeNestedField x5 ["status"]
  let x7 := removeNestedField x6 ["metadata", "managedFields"]
  let x8 := removeAnnotations x7 blockedAnnotationKeys
  let x9 := removeLabels x8 blockedLabelKeys
  removeEmptyFields x9 [["metadata", "annotations"], ["metadata", "labels"]]

/-- Effect of `removeAnnotations` / `removeLabels` on the metadata mapping
(proof infrastructure, related to the source embedding by
`cleanResource_eq`): an all-string mapping has the listed keys deleted; any
other present value is removed wholesale (the getter returned nil, so the
setter removed the field); an absent field stays absent. -/
def annStep (m : JObj) (fld : String) (keys : List String) : JObj :=
  match lookupKey m fld with
  | some (JValue.obj a) =>
    if allStringValues a then setKey m fld (JValue.obj (eraseKeys a keys))
    else eraseKey m fld
  | _ => eraseKey m fld

/-- Effect of one `removeEmptyFields` iteration on the metadata mapping. -/
def emptyStep (m : JObj) (fld : String) : JObj :=
  match lookupKey m fld with
  | some (JValue.obj []) => eraseKey m fld
  | _ => m

/-- The metadata keys deleted by the `RemoveNestedField` calls of
`cleanResource`, in source order. -/
def metaFieldKeys : List String :=
  ["resourceVersion", "uid", "selfLink", "creationTimestamp", "generation",
   "managedFields"]

/-- The complete effect of `cleanResource` on the metadata mapping, in
source order. -/
def cleanMeta (m : JObj) : JObj :=
  emptyStep
    (emptyStep
      (annStep
        (annStep (eraseKeys m metaFieldKeys)
          "annotations" blockedAnnotationKeys)
        "labels" blockedLabelKeys)
      "annotations")
    "labels"

/-- The annotations (or labels) value after `cleanResource`, as a function
of the value before: an all-string mapping keeps its non-blocked entries
unless none remain; any other present value and an emptied mapping are
removed. -/
def annResult (r : Option JValue) (keys : List String) : Option JValue :=
  match r with
  | some (JValue.obj a) =>
    if allStringValues a then
      match eraseKeys a keys with
      | [] => none
      | b => some (JValue.obj b)
    else none
  | _ => none

/-- Post-sanitization state of the annotations / labels field of a
metadata mapping: absent, or a non-empty all-string mapping already free
of the blocked keys. -/
def cleanFldState (n : JObj) (fld : String) (keys : List String) : Prop :=
  lookupKey n fld = none ∨
  ∃ b, lookupKey n fld = some (JValue.obj b) ∧ b ≠ [] ∧
    allStringValues b = true ∧ eraseKeys b keys = b

/-- Annotations / labels field that `cleanResource` removes wholesale
although it did not become empty by key removal: present but not an
all-string mapping (`GetAnnotations` returns nil for it, and
`SetAnnotations(nil)` then deletes the field). -/
def removedWholesale (x : JObj) (fld : String) : Bool :=
  match getNested x ["metadata", fld] with
  | some (JValue.obj a) => !allStringValues a
  | some _ => true
  | none => false

/-- Annotations / labels mapping that becomes empty once the blocked keys
are removed (the exception claim C10 itself grants). -/
def becomesEmptyAfter (x : JObj) (fld : String) (keys : List String) : Bool :=
  match getNested x ["metadata", fld] with
  | some (JValue.obj a) => (eraseKeys a keys).isEmpty
  | _ => false

/-- Field paths below `metadata.annotations` / `metadata.labels` that claim
C10, as stated, exempts from the frame property: the container itself, a
blocked key, and anything below a mapping that becomes empty. -/
def exceptMapFieldOrig (x : JObj) (fld : String) (keys : List String) :
    List String → Bool
  | [] => true
  | k :: _ => keys.contains k || becomesEmptyAfter x fld keys

/-- Field paths below `metadata` that claim C10, as stated, exempts. -/
def exceptMetaOrig (x : JObj) : List String → Bool
  | [] => true
  | g :: gs =>
    metaFieldKeys.contains g ||
    (g == "annotations" &&
      exceptMapFieldOrig x "annotations" blockedAnnotationKeys gs) ||
    (g == "labels" && exceptMapFieldOrig x "labels" blockedLabelKeys gs)

/-- The field paths claim C10, as stated, exempts from the frame property,
read hierarchically: paths through `status`, through a blocked metadata
field, through a blocked annotation / label key, the containers of those
paths, and everything below an annotations / labels mapping that becomes
empty after key removal. -/
def exceptPathOrig (x : JObj) : List String → Bool
  | [] => true
  | f :: fs => f == "status" || (f == "metadata" && exceptMetaOrig x fs)

/-- Amended variant of `exceptMapFieldOrig`: additionally exempts
everything below an annotations / labels field the sanitizer removes
wholesale because it is not an all-string mapping. -/
def exceptMapFieldAmd (x : JObj) (fld : String) (keys : List String) :
    List String → Bool
  | [] => true
  | k :: _ =>
    keys.contains k || becomesEmptyAfter x fld keys || removedWholesale x fld

/-- Amended variant of `exceptMetaOrig`. -/
def exceptMetaAmd (x : JObj) : List String → Bool
  | [] => true
  | g :: gs =>
    metaFieldKeys.contains g ||
    (g == "annotations" &&
      exceptMapFieldAmd x "annotations" blockedAnnotationKeys gs) ||
    (g == "labels" && exceptMapFieldAmd x "labels" blockedLabelKeys gs)

/-- Amended variant of `exceptPathOrig`: the amendment exempts, beyond the
claim's own exceptions, only the paths below a non-all-string-valued
annotations / labels field, which the sanitizer removes wholesale. -/
def exceptPathAmd (x : JObj) : List String → Bool
  | [] => true
  | f :: fs => f == "status" || (f == "metadata" && exceptMetaAmd x fs)

/-- Side condition of the amended claim C6 on the annotations / labels
field: absent, or a non-empty mapping with only string values and no
blocked keys. -/
def goodMapField (x : JObj) (fld : String) (keys : List String) : Bool :=
  match getNested x ["metadata", fld] with
  | none => true
  | some (JValue.obj a) =>
    !a.isEmpty && allStringValues a && a.all (fun pr => !(keys.contains pr.1))
  | some _ => false

/-- Hypothesis of claim C7 on the annotations / labels field: a present
mapping all of whose keys are blocked. -/
def onlyBlockedKeys (x : JObj) (fld : String) (keys : List String) : Bool :=
  match getNested x ["metadata", fld] with
  | some (JValue.obj a) => a.all (fun pr => keys.contains pr.1)
  | _ => false

/-! Embedding of the per-object write loop of `main` (main.go:169-188): for
every object of a resource list, the original variant is written first,
then `cleanResource` mutates the very object in place (no deep copy is
taken), then the sanitized variant is written.  A written file's content is
the value the object has at the moment of its write; the YAML serializer is
applied to that value, so the object value stands for the bytes written. -/

/-- One file write performed by `saveResourceAsYAML` (main.go:330-349). -/
structure WriteEvent where
  path : String
  content : JObj
deriving Repr

/-- The path `filepath.Join(dir, name + ".yaml")` (main.go:170-171). -/
def yamlPath (dir name : String) : String := dir ++ "/" ++ name ++ ".yaml"

/-- The sequence of writes issued by the object loop at main.go:169-188 for
the listed items (name and value as fetched): original write, then
sanitized write, per object in list order. -/
def writeTrace (origDir modDir : String) : List (String × JObj) → List WriteEvent
  | [] => []
  | (name, item) :: rest =>
    ⟨yamlPath origDir name, item⟩ ::
      ⟨yamlPath modDir name, cleanResource item⟩ ::
        writeTrace origDir modDir rest

/-! Embedding of the namespace walk of `main` (main.go:119-190) at the
granularity of claim C3.  The filesystem is abstracted by which `MkdirAll`
calls succeed; the per-kind listing and writing is a single event per
resource kind.  The `strings.TrimSpace` applied to each namespace name at
main.go:120 is immaterial here and the names are taken as already
trimmed. -/

/-- Observable events of the namespace walk. -/
inductive WalkAct where
  | mkdirAttempt (dir : String) (ok : Bool)
  | logDirError (ns : String)
  | saveNamespaceRes (ns : String)
  | processKind (ns res : String)
deriving Repr, DecidableEq

/-- The directory-creation loop at main.go:127-133: `os.MkdirAll` for each
of the two namespace directories; on failure the error is printed and
`continue` is executed, which — being the last statement of the loop
body — only moves on to the next directory. -/
def dirLoop (mkdirOk : String → Bool) (ns : String) : List String → List WalkAct
  | [] => []
  | d :: ds =>
    WalkAct.mkdirAttempt d (mkdirOk d) ::
      (if mkdirOk d then dirLoop mkdirOk ns ds
       else WalkAct.logDirError ns :: dirLoop mkdirOk ns ds)

/-- One iteration of the namespace loop (main.go:119-190): attempt to
create the two namespace directories, then save the Namespace object, then
process every resource kind; the source reaches the latter two
unconditionally, whatever the directory loop produced. -/
def processNamespace (mkdirOk : String → Bool) (kinds : List String)
    (origDir modDir ns : String) : List WalkAct :=
  dirLoop mkdirOk ns [origDir ++ "/" ++ ns, modDir ++ "/" ++ ns] ++
    (WalkAct.saveNamespaceRes ns :: kinds.map (WalkAct.processKind ns))

/-- The whole namespace walk, namespace by namespace in input order. -/
def runWalk (mkdirOk : String → Bool) (kinds : List String)
    (origDir modDir : String) : List String → List WalkAct
  | [] => []
  | ns :: rest =>
    processNamespace mkdirOk kinds origDir modDir ns ++
      runWalk mkdirOk kinds origDir modDir rest

/-- Directory oracle under which creating `resources/original/ns1` fails
and every other directory creation succeeds. -/
def failNs1Orig : String → Bool :=
  fun d => !(d == "resources/original/ns1")

/-! Embedding of `UploadUsingPAR` (main.go:416-476).  The filesystem and
network interaction is captured by an environment: whether the destination
URL parses, the file exists, `os.Open` and `Stat` succeed, the file's byte
content, the count returned by the single `file.Read(buffer)` call and
whether that call errors, whether the transport succeeds, and the response
status code.  The source allocates the buffer at the file's size and issues
exactly one read, ignoring the returned count; Linux `read(2)` transfers at
most `0x7ffff000` bytes per call, so for larger files `readCount` is
necessarily smaller than the file. -/

structure UploadEnv where
  urlParses : Bool
  fileExists : Bool
  openOk : Bool
  statOk : Bool
  content : List Nat
  readCount : Nat
  readErr : Bool
  transportOk : Bool
  statusCode : Nat

/-- The request body handed to `http.NewRequest` (main.go:447-454): the
buffer of length `fileSize`, its first `readCount` bytes read from the
file and the rest still the zero bytes `make([]byte, fileSize)` creates. -/
def requestBody (env : UploadEnv) : List Nat :=
  env.content.take env.readCount ++
    List.replicate (env.content.length - env.readCount) 0

structure PutRequest where
  contentType : String
  body : List Nat

/-- The PUT request built at main.go:454-460, with its Content-Type
header. -/
def buildPutRequest (env : UploadEnv) : PutRequest :=
  { contentType := "application/zip", body := requestBody env }

inductive UploadOutcome where
  | ok
  | errParse
  | errNotExist
  | errOpen
  | errStat
  | errRead
  | errTransport
  | errBadStatus (code : Nat)
deriving Repr, DecidableEq

/-- Control flow of `UploadUsingPAR`, in source order: URL parse, existence
check, open, `Stat`, the single read, the PUT, then the status check at
main.go:471 accepting exactly 200 and 201. -/
def uploadUsingPAR (env : UploadEnv) : UploadOutcome :=
  if !env.urlParses then UploadOutcome.errParse
  else if !env.fileExists then UploadOutcome.errNotExist
  else if !env.openOk then UploadOutcome.errOpen
  else if !env.statOk then UploadOutcome.errStat
  else if env.readErr then UploadOutcome.errRead
  else if !env.transportOk then UploadOutcome.errTransport
  else if env.statusCode = 200 ∨ env.statusCode = 201 then UploadOutcome.ok
  else UploadOutcome.errBadStatus env.statusCode

/-- The largest byte count a single Linux `read(2)` can transfer,
`0x7ffff000`. -/
def linuxReadMax : Nat := 2147479552

/-- Upload environment for a file of `n + 1` one-bytes of which the single
read returns only `n` — on Linux this happens with `n = linuxReadMax` for
any file of 2147479553 bytes or more: every other step succeeds and the
server answers 200. -/
def shortReadEnv (n : Nat) : UploadEnv :=
  { urlParses := true, fileExists := true, openOk := true, statOk := true,
    content := List.replicate (n + 1) 1,
    readCount := n, readErr := false, transportOk := true,
    statusCode := 200 }

/-- Upload environment where everything works but the server answers the
given status code, for a tiny file read in full. -/
def statusEnv (code : Nat) : UploadEnv :=
  { urlParses := true, fileExists := true, openOk := true, statOk := true,
    content := [1, 2, 3], readCount := 3, readErr := false,
    transportOk := true, statusCode := code }

/-! Embedding of `ZipDirectory` (main.go:352-413).  `filepath.Walk` is
modeled by the list of entries it visits (path, directory flag, byte
content) in walk order; paths are character strings over the Linux
separator `/`, the platform the tool's Dockerfile targets. -/

structure FsEntry where
  path : List Char
  isDir : Bool
  content : List Nat
deriving Repr, DecidableEq

structure ZipEntry where
  entryName : List Char
  methodCode : Nat
  content : List Nat
deriving Repr, DecidableEq

/-- Go `strings.TrimPrefix`. -/
def trimPrefixL (s pre : List Char) : List Char :=
  if pre.isPrefixOf s then s.drop pre.length else s

/-- `filepath.Separator` on Linux. -/
def pathSep : Char := '/'

/-- The walk callback of `ZipDirectory` applied to every visited entry:
directories yield no archive entry; every other entry is added with the
deflate method (code 8) under the name obtained by trimming the
`sourceDir` prefix and then one leading separator (main.go:383-392), and
its content is copied. -/
def zipDirectory (sourceDir : List Char) (walkEntries : List FsEntry) :
    List ZipEntry :=
  walkEntries.filterMap (fun e =>
    if e.isDir then none
    else some { entryName := trimPrefixL (trimPrefixL e.path sourceDir) [pathSep],
                methodCode := 8, content := e.content })

/-! Concrete objects used as counterexamples and witnesses. -/

/-- Object whose `metadata.annotations` is an empty mapping. -/
def emptyAnnObject : JObj :=
  [("metadata", JValue.obj [("annotations", JValue.obj [])])]

/-- Object whose `metadata.annotations` holds a mapping with a non-string
value under an unblocked key. -/
def numAnnObject : JObj :=
  [("metadata", JValue.obj
    [("annotations", JValue.obj [("replicas", JValue.num 5)])])]

/-- Object containing none of the blocked fields or keys, with non-empty
all-string annotations and labels. -/
def benignObject : JObj :=
  [("apiVersion", JValue.str "v1"), ("kind", JValue.str "Service"),
   ("metadata", JValue.obj
     [("name", JValue.str "web"),
      ("annotations", JValue.obj [("team", JValue.str "core")]),
      ("labels", JValue.obj [("app", JValue.str "web")])]),
   ("spec", JValue.obj [("type", JValue.str "ClusterIP")])]

/-- Object whose annotations and labels mappings contain only blocked
keys. -/
def onlyBlockedObject : JObj :=
  [("metadata", JValue.obj
    [("annotations", JValue.obj
      [("objectset.rio.cattle.io/id", JValue.str "x"),
       ("cattle.io.timestamp", JValue.str "t")]),
     ("labels", JValue.obj
       [("objectset.rio.cattle.io/hash", JValue.str "h")])])]

/-- A small captured Deployment object, as fetched. -/
def webDeployment : JObj :=
  [("kind", JValue.str "Deployment"),
   ("metadata", JValue.obj
     [("name", JValue.str "web"), ("uid", JValue.str "42")]),
   ("status", JValue.obj [("readyReplicas", JValue.num 3)])]

/-! Basic facts about the association-list map operations. -/

example :
    cleanResource
      [("kind", JValue.str "Pod"),
       ("metadata", JValue.obj
         [("name", JValue.str "web"),
          ("uid", JValue.str "123"),
          ("annotations", JValue.obj
            [("objectset.rio.cattle.io/id", JValue.str "x"),
             ("team", JValue.str "a")])]),
       ("status", JValue.obj [("phase", JValue.str "Running")])]
    =
      [("kind", JValue.str "Pod"),
       ("metadata", JValue.obj
         [("name", JValue.str "web"),
          ("annotations", JValue.obj [("team", JValue.str "a")])])] := rfl

example :
    cleanResource [("metadata", JValue.obj [("annotations", JValue.obj [])])]
    = [("metadata", JValue.obj [])] := rfl

theorem lookupKey_eraseKey_self (m : JObj) (k : String) :
    lookupKey (eraseKey m k) k = none := by
  induction m with
  | nil => rfl
  | cons pr rest ih =>
    obtain ⟨k', v⟩ := pr
    by_cases h : k' = k
    · simp [eraseKey, h, ih]
    · simp [eraseKey, h, lookupKey, ih]

theorem lookupKey_eraseKey_ne (m : JObj) {k k' : String} (h : k' ≠ k) :
    lookupKey (eraseKey m k) k' = lookupKey m k' := by
  induction m with
  | nil => rfl
  | cons pr rest ih =>
    obtain ⟨k'', v⟩ := pr
    by_cases hk : k'' = k
    · subst hk
      simp [eraseKey, lookupKey, Ne.symm h, ih]
    · by_cases hk' : k'' = k'
      · simp [eraseKey, hk, lookupKey, hk', h]
      · simp [eraseKey, hk, lookupKey, hk', ih]

theorem eraseKey_of_lookupKey_none {m : JObj} {k : String}
    (h : lookupKey m k = none) : eraseKey m k = m := by
  induction m with
  | nil => rfl
  | cons pr rest ih =>
    obtain ⟨k', v⟩ := pr
    by_cases hk : k' = k
    · simp [lookupKey, hk] at h
    · simp only [lookupKey, if_neg hk] at h
      simp [eraseKey, hk, ih h]

theorem eraseKey_eraseKey_self (m : JObj) (k : String) :
    eraseKey (eraseKey m k) k = eraseKey m k :=
  eraseKey_of_lookupKey_none (lookupKey_eraseKey_self m k)

theorem lookupKey_setKey_self (m : JObj) (k : String) (v : JValue) :
    lookupKey (setKey m k v) k = some v := by
  induction m with
  | nil => simp [setKey, lookupKey]
  | cons pr rest ih =>
    obtain ⟨k', w⟩ := pr
    by_cases hk : k' = k
    · simp [setKey, hk, lookupKey]
    · simpa [setKey, hk, lookupKey] using ih

theorem lookupKey_setKey_ne (m : JObj) {k k' : String} (v : JValue) (h : k' ≠ k) :
    lookupKey (setKey m k v) k' = lookupKey m k' := by
  induction m with
  | nil => simp [setKey, lookupKey, Ne.symm h]
  | cons pr rest ih =>
    obtain ⟨k'', w⟩ := pr
    by_cases hk : k'' = k
    · subst hk
      simp [setKey, lookupKey, Ne.symm h, h]
    · by_cases hk' : k'' = k'
      · simp [setKey, hk, lookupKey, hk', h]
      · simp [setKey, hk, lookupKey, hk', ih]

theorem setKey_of_lookupKey_eq {m : JObj} {k : String} {v : JValue}
    (h : lookupKey m k = some v) : setKey m k v = m := by
  induction m with
  | nil => simp [lookupKey] at h
  | cons pr rest ih =>
    obtain ⟨k', w⟩ := pr
    by_cases hk : k' = k
    · subst hk
      have h' : w = v := by simpa [lookupKey] using h
      subst h'
      simp [setKey]
    · simp only [lookupKey, if_neg hk] at h
      simp [setKey, hk, ih h]

theorem setKey_setKey (m : JObj) (k : String) (v w : JValue) :
    setKey (setKey m k v) k w = setKey m k w := by
  induction m with
  | nil => simp [setKey]
  | cons pr rest ih =>
    obtain ⟨k', u⟩ := pr
    by_cases hk : k' = k
    · simp [setKey, hk]
    · simp [setKey, hk, ih]

theorem eraseKey_setKey_ne (m : JObj) {k k' : String} (v : JValue) (h : k ≠ k') :
    eraseKey (setKey m k v) k' = setKey (eraseKey m k') k v := by
  induction m with
  | nil => simp [setKey, eraseKey, h]
  | cons pr rest ih =>
    obtain ⟨k'', u⟩ := pr
    by_cases hk : k'' = k
    · subst hk
      simp [setKey, eraseKey, h, Ne.symm h]
    · by_cases hk' : k'' = k'
      · subst hk'
        simp [setKey, hk, eraseKey, ih]
      · simp [setKey, hk, eraseKey, hk', ih]

theorem lookupKey_eraseKeys_not_mem (keys : List String) (m : JObj) {k : String}
    (h : k ∉ keys) : lookupKey (eraseKeys m keys) k = lookupKey m k := by
  induction keys generalizing m with
  | nil => rfl
  | cons k' ks ih =>
    simp only [List.mem_cons, not_or] at h
    rw [eraseKeys, ih (eraseKey m k') h.2, lookupKey_eraseKey_ne m h.1]

theorem lookupKey_eraseKeys_mem (keys : List String) (m : JObj) {k : String}
    (h : k ∈ keys) : lookupKey (eraseKeys m keys) k = none := by
  induction keys generalizing m with
  | nil => cases h
  | cons k' ks ih =>
    rcases List.mem_cons.mp h with h1 | h2
    · subst h1
      by_cases hm : k ∈ ks
      · exact ih _ hm
      · rw [eraseKeys, lookupKey_eraseKeys_not_mem ks _ hm,
          lookupKey_eraseKey_self]
    · exact ih _ h2

theorem eraseKeys_of_lookupKey_none {keys : List String} {m : JObj}
    (h : ∀ k ∈ keys, lookupKey m k = none) : eraseKeys m keys = m := by
  induction keys with
  | nil => rfl
  | cons k ks ih =>
    rw [eraseKeys, eraseKey_of_lookupKey_none (h k (List.mem_cons_self k ks))]
    exact ih (fun k' hk' => h k' (List.mem_cons_of_mem k hk'))

theorem mem_eraseKey {m : JObj} {k : String} {pr : String × JValue}
    (h : pr ∈ eraseKey m k) : pr ∈ m := by
  induction m with
  | nil => cases h
  | cons pr' rest ih =>
    obtain ⟨k', v⟩ := pr'
    by_cases hk : k' = k
    · simp only [eraseKey, if_pos hk] at h
      exact List.mem_cons_of_mem _ (ih h)
    · simp only [eraseKey, if_neg hk, List.mem_cons] at h
      rcases h with h | h
      · exact h ▸ List.mem_cons_self _ _
      · exact List.mem_cons_of_mem _ (ih h)

theorem not_mem_eraseKey_key {m : JObj} {k : String} {pr : String × JValue}
    (h : pr ∈ eraseKey m k) : pr.1 ≠ k := by
  induction m with
  | nil => cases h
  | cons pr' rest ih =>
    obtain ⟨k', v⟩ := pr'
    by_cases hk : k' = k
    · simp only [eraseKey, if_pos hk] at h
      exact ih h
    · simp only [eraseKey, if_neg hk, List.mem_cons] at h
      rcases h with h | h
      · simpa [h] using hk
      · exact ih h

theorem eraseKeys_eq_nil_of_all_mem {keys : List String} {m : JObj}
    (h : ∀ pr ∈ m, pr.1 ∈ keys) : eraseKeys m keys = [] := by
  induction keys generalizing m with
  | nil =>
    cases m with
    | nil => rfl
    | cons pr rest => cases h pr (List.mem_cons_self pr rest)
  | cons k ks ih =>
    refine ih (fun pr hpr => ?_)
    have h1 := h pr (mem_eraseKey hpr)
    have h2 := not_mem_eraseKey_key hpr
    rcases List.mem_cons.mp h1 with h3 | h3
    · exact absurd h3 h2
    · exact h3

theorem allStringValues_eraseKey {m : JObj} (k : String)
    (h : allStringValues m = true) : allStringValues (eraseKey m k) = true := by
  induction m with
  | nil => rfl
  | cons pr rest ih =>
    obtain ⟨k', v⟩ := pr
    cases v with
    | str s =>
      have h' : allStringValues rest = true := by simpa [allStringValues] using h
      by_cases hk : k' = k
      · simpa [eraseKey, hk] using ih h'
      · simpa [eraseKey, hk, allStringValues] using ih h'
    | null => simp [allStringValues] at h
    | boolVal b => simp [allStringValues] at h
    | num n => simp [allStringValues] at h
    | arr l => simp [allStringValues] at h
    | obj o => simp [allStringValues] at h

theorem allStringValues_eraseKeys {m : JObj} (keys : List String)
    (h : allStringValues m = true) : allStringValues (eraseKeys m keys) = true := by
  induction keys generalizing m with
  | nil => exact h
  | cons k ks ih => exact ih (allStringValues_eraseKey k h)

/-! Normalization of `cleanResource`: its effect factors into the removal
of the top-level `status` key and the pure transformation `cleanMeta` of
the `metadata` mapping; `cleanResource_eq` proves this. -/

theorem removeNestedField_single (x : JObj) (f : String) :
    removeNestedField x [f] = eraseKey x f := rfl

theorem getNested_single (x : JObj) (f : String) :
    getNested x [f] = lookupKey x f := rfl

theorem getNested_pair (x : JObj) (f1 f2 : String) :
    getNested x [f1, f2] =
      (match lookupKey x f1 with
       | some (JValue.obj m) => lookupKey m f2
       | _ => none) := by
  cases h : lookupKey x f1 with
  | none => simp [getNested, h]
  | some v => cases v <;> simp [getNested, h]

theorem getNested_cons_cons (x : JObj) (f g : String) (fs : List String) :
    getNested x (f :: g :: fs) =
      (match lookupKey x f with
       | some (JValue.obj m) => getNested m (g :: fs)
       | _ => none) := by
  cases h : lookupKey x f with
  | none => simp [getNested, h]
  | some v => cases v <;> simp [getNested, h]

theorem removeNestedField_pair_obj {x : JObj} {m : JObj}
    (h : lookupKey x "metadata" = some (JValue.obj m)) (f : String) :
    removeNestedField x ["metadata", f]
      = setKey x "metadata" (JValue.obj (eraseKey m f)) := by
  simp [removeNestedField, h]

theorem removeNestedField_pair_not_obj {x : JObj} {f1 : String}
    (h : ∀ m, lookupKey x f1 ≠ some (JValue.obj m)) (f : String) :
    removeNestedField x [f1, f] = x := by
  cases hv : lookupKey x f1 with
  | none => simp [removeNestedField, hv]
  | some v =>
    cases v <;> simp [removeNestedField, hv]
    exact absurd hv (h _)

theorem removeMapKeys_obj {x : JObj} {m : JObj}
    (h : lookupKey x "metadata" = some (JValue.obj m)) (fld : String)
    (keys : List String) :
    removeMapKeys x fld keys
      = setKey x "metadata" (JValue.obj (annStep m fld keys)) := by
  unfold removeMapKeys nestedStringMap annStep
  rw [h]
  cases hv : lookupKey m fld with
  | none => simp [hv, removeNestedField_pair_obj h]
  | some v =>
    cases v with
    | obj a =>
      by_cases hs : allStringValues a
      · simp [hv, hs, setNestedStringMap, h]
      · simp [hv, hs, removeNestedField_pair_obj h]
    | null => simp [hv, removeNestedField_pair_obj h]
    | boolVal b => simp [hv, removeNestedField_pair_obj h]
    | num n => simp [hv, removeNestedField_pair_obj h]
    | str s => simp [hv, removeNestedField_pair_obj h]
    | arr l => simp [hv, removeNestedField_pair_obj h]

theorem removeMapKeys_not_obj {x : JObj}
    (h : ∀ m, lookupKey x "metadata" ≠ some (JValue.obj m)) (fld : String)
    (keys : List String) :
    removeMapKeys x fld keys = x := by
  unfold removeMapKeys nestedStringMap
  cases hv : lookupKey x "metadata" with
  | none => simp [removeNestedField_pair_not_obj h]
  | some v =>
    cases v <;> simp [removeNestedField_pair_not_obj h]
    exact absurd hv (h _)

theorem removeEmptyField_obj {x : JObj} {m : JObj}
    (h : lookupKey x "metadata" = some (JValue.obj m)) (fld : String) :
    removeEmptyField x ["metadata", fld]
      = setKey x "metadata" (JValue.obj (emptyStep m fld)) := by
  unfold removeEmptyField emptyStep
  rw [getNested_pair, h]
  cases hv : lookupKey m fld with
  | none => simp [hv, setKey_of_lookupKey_eq h]
  | some v =>
    cases v with
    | obj a =>
      cases a with
      | nil => simp [hv, removeNestedField_pair_obj h]
      | cons pr rest => simp [hv, setKey_of_lookupKey_eq h]
    | null => simp [hv, setKey_of_lookupKey_eq h]
    | boolVal b => simp [hv, setKey_of_lookupKey_eq h]
    | num n => simp [hv, setKey_of_lookupKey_eq h]
    | str s => simp [hv, setKey_of_lookupKey_eq h]
    | arr l => simp [hv, setKey_of_lookupKey_eq h]

theorem removeEmptyField_not_obj {x : JObj}
    (h : ∀ m, lookupKey x "metadata" ≠ some (JValue.obj m)) (fld : String) :
    removeEmptyField x ["metadata", fld] = x := by
  unfold removeEmptyField
  rw [getNested_pair]
  cases hv : lookupKey x "metadata" with
  | none => simp
  | some v =>
    cases v <;> simp
    exact absurd hv (h _)

theorem rnf_chain {y x m : JObj}
    (hy : y = setKey x "metadata" (JValue.obj m)) (f : String) :
    removeNestedField y ["metadata", f]
      = setKey x "metadata" (JValue.obj (eraseKey m f)) := by
  subst hy
  rw [removeNestedField_pair_obj (lookupKey_setKey_self x "metadata" (JValue.obj m)) f,
    setKey_setKey]

theorem rmk_chain {y x m : JObj}
    (hy : y = setKey x "metadata" (JValue.obj m)) (fld : String)
    (keys : List String) :
    removeMapKeys y fld keys
      = setKey x "metadata" (JValue.obj (annStep m fld keys)) := by
  subst hy
  rw [removeMapKeys_obj (lookupKey_setKey_self x "metadata" (JValue.obj m)) fld keys,
    setKey_setKey]

theorem ref_chain {y x m : JObj}
    (hy : y = setKey x "metadata" (JValue.obj m)) (fld : String) :
    removeEmptyField y ["metadata", fld]
      = setKey x "metadata" (JValue.obj (emptyStep m fld)) := by
  subst hy
  rw [removeEmptyField_obj (lookupKey_setKey_self x "metadata" (JValue.obj m)) fld,
    setKey_setKey]

theorem status_chain {y x m : JObj}
    (hy : y = setKey x "metadata" (JValue.obj m)) :
    removeNestedField y ["status"]
      = setKey (eraseKey x "status") "metadata" (JValue.obj m) := by
  subst hy
  rw [removeNestedField_single,
    eraseKey_setKey_ne x (JValue.obj m) (by decide : ("metadata" : String) ≠ "status")]

theorem cleanResource_eq_obj {x m : JObj}
    (h : lookupKey x "metadata" = some (JValue.obj m)) :
    cleanResource x
      = setKey (eraseKey x "status") "metadata" (JValue.obj (cleanMeta m)) := by
  have e1 := removeNestedField_pair_obj h "resourceVersion"
  have e2 := rnf_chain e1 "uid"
  have e3 := rnf_chain e2 "selfLink"
  have e4 := rnf_chain e3 "creationTimestamp"
  have e5 := rnf_chain e4 "generation"
  have e6 := status_chain e5
  have e7 := rnf_chain e6 "managedFields"
  have e8 := rmk_chain e7 "annotations" blockedAnnotationKeys
  have e9 := rmk_chain e8 "labels" blockedLabelKeys
  have e10 := ref_chain e9 "annotations"
  have e11 := ref_chain e10 "labels"
  exact e11

theorem cleanResource_eq_not_obj {x : JObj}
    (h : ∀ m, lookupKey x "metadata" ≠ some (JValue.obj m)) :
    cleanResource x = eraseKey x "status" := by
  have h' : ∀ m, lookupKey (eraseKey x "status") "metadata" ≠ some (JValue.obj m) := by
    intro m
    rw [lookupKey_eraseKey_ne x (by decide : ("metadata" : String) ≠ "status")]
    exact h m
  simp only [cleanResource, removeAnnotations, removeLabels, removeEmptyFields,
    List.foldl, removeNestedField_pair_not_obj h, removeNestedField_single,
    removeNestedField_pair_not_obj h', removeMapKeys_not_obj h',
    removeEmptyField_not_obj h']

/-- Normalization of `cleanResource`: the sanitizer removes the top-level
`status` key and rewrites the `metadata` mapping through `cleanMeta`;
objects without a `metadata` mapping only lose `status`. -/
theorem cleanResource_eq (x : JObj) :
    cleanResource x =
      (match lookupKey x "metadata" with
       | some (JValue.obj m) =>
         setKey (eraseKey x "status") "metadata" (JValue.obj (cleanMeta m))
       | _ => eraseKey x "status") := by
  cases hv : lookupKey x "metadata" with
  | none =>
    rw [cleanResource_eq_not_obj (fun m hm => by rw [hv] at hm; cases hm)]
  | some v =>
    cases v with
    | obj m => rw [cleanResource_eq_obj hv]
    | null =>
      rw [cleanResource_eq_not_obj (fun m hm => by rw [hv] at hm; simp at hm)]
    | boolVal b =>
      rw [cleanResource_eq_not_obj (fun m hm => by rw [hv] at hm; simp at hm)]
    | num n =>
      rw [cleanResource_eq_not_obj (fun m hm => by rw [hv] at hm; simp at hm)]
    | str s =>
      rw [cleanResource_eq_not_obj (fun m hm => by rw [hv] at hm; simp at hm)]
    | arr l =>
      rw [cleanResource_eq_not_obj (fun m hm => by rw [hv] at hm; simp at hm)]

/-! Characterization of `cleanMeta`, key by key. -/

theorem lookupKey_annStep_ne {m : JObj} {k fld : String} (keys : List String)
    (h : k ≠ fld) : lookupKey (annStep m fld keys) k = lookupKey m k := by
  unfold annStep
  cases hv : lookupKey m fld with
  | none => exact lookupKey_eraseKey_ne m h
  | some v =>
    cases v with
    | obj a =>
      by_cases hs : allStringValues a
      · simp only [hs, if_true]
        exact lookupKey_setKey_ne m _ h
      · simp only [hs, if_false]
        exact lookupKey_eraseKey_ne m h
    | null => exact lookupKey_eraseKey_ne m h
    | boolVal b => exact lookupKey_eraseKey_ne m h
    | num n => exact lookupKey_eraseKey_ne m h
    | str s => exact lookupKey_eraseKey_ne m h
    | arr l => exact lookupKey_eraseKey_ne m h

theorem lookupKey_emptyStep_ne {m : JObj} {k fld : String}
    (h : k ≠ fld) : lookupKey (emptyStep m fld) k = lookupKey m k := by
  unfold emptyStep
  cases hv : lookupKey m fld with
  | none => rfl
  | some v =>
    cases v with
    | obj a =>
      cases a with
      | nil => exact lookupKey_eraseKey_ne m h
      | cons pr rest => rfl
    | null => rfl
    | boolVal b => rfl
    | num n => rfl
    | str s => rfl
    | arr l => rfl

theorem lookupKey_annStep_self (m : JObj) (fld : String) (keys : List String) :
    lookupKey (annStep m fld keys) fld =
      (match lookupKey m fld with
       | some (JValue.obj a) =>
         if allStringValues a then some (JValue.obj (eraseKeys a keys)) else none
       | _ => none) := by
  unfold annStep
  cases hv : lookupKey m fld with
  | none => simp [lookupKey_eraseKey_self]
  | some v =>
    cases v with
    | obj a =>
      by_cases hs : allStringValues a
      · simp [hs, lookupKey_setKey_self]
      · simp [hs, lookupKey_eraseKey_self]
    | null => simp [lookupKey_eraseKey_self]
    | boolVal b => simp [lookupKey_eraseKey_self]
    | num n => simp [lookupKey_eraseKey_self]
    | str s => simp [lookupKey_eraseKey_self]
    | arr l => simp [lookupKey_eraseKey_self]

theorem lookupKey_emptyStep_self (m : JObj) (fld : String) :
    lookupKey (emptyStep m fld) fld =
      (match lookupKey m fld with
       | some (JValue.obj []) => none
       | r => r) := by
  unfold emptyStep
  cases hv : lookupKey m fld with
  | none => simp [hv]
  | some v =>
    cases v with
    | obj a =>
      cases a with
      | nil => simp [hv, lookupKey_eraseKey_self]
      | cons pr rest => simp [hv]
    | null => simp [hv]
    | boolVal b => simp [hv]
    | num n => simp [hv]
    | str s => simp [hv]
    | arr l => simp [hv]

theorem lookupKey_cleanMeta_of_ne {m : JObj} {k : String}
    (h1 : k ≠ "annotations") (h2 : k ≠ "labels") :
    lookupKey (cleanMeta m) k = lookupKey (eraseKeys m metaFieldKeys) k := by
  unfold cleanMeta
  rw [lookupKey_emptyStep_ne h2, lookupKey_emptyStep_ne h1,
    lookupKey_annStep_ne _ h2, lookupKey_annStep_ne _ h1]

theorem lookupKey_cleanMeta_metaKey {m : JObj} {k : String}
    (hk : k ∈ metaFieldKeys) : lookupKey (cleanMeta m) k = none := by
  have h12 :=
    (by decide : ∀ k ∈ metaFieldKeys, k ≠ "annotations" ∧ k ≠ "labels") k hk
  rw [lookupKey_cleanMeta_of_ne h12.1 h12.2, lookupKey_eraseKeys_mem _ _ hk]

theorem lookupKey_cleanMeta_other {m : JObj} {k : String}
    (h0 : k ∉ metaFieldKeys) (h1 : k ≠ "annotations") (h2 : k ≠ "labels") :
    lookupKey (cleanMeta m) k = lookupKey m k := by
  rw [lookupKey_cleanMeta_of_ne h1 h2, lookupKey_eraseKeys_not_mem _ _ h0]

theorem lookupKey_cleanMeta_annotations (m : JObj) :
    lookupKey (cleanMeta m) "annotations"
      = annResult (lookupKey m "annotations") blockedAnnotationKeys := by
  unfold cleanMeta
  rw [lookupKey_emptyStep_ne (by decide : ("annotations" : String) ≠ "labels"),
    lookupKey_emptyStep_self,
    lookupKey_annStep_ne _ (by decide : ("annotations" : String) ≠ "labels"),
    lookupKey_annStep_self,
    lookupKey_eraseKeys_not_mem _ _ (by decide : "annotations" ∉ metaFieldKeys)]
  unfold annResult
  cases hv : lookupKey m "annotations" with
  | none => simp
  | some v =>
    cases v with
    | obj a =>
      by_cases hs : allStringValues a
      · simp only [hs, if_true]
        cases he : eraseKeys a blockedAnnotationKeys with
        | nil => simp
        | cons pr rest => simp
      · simp [hs]
    | null => simp
    | boolVal b => simp
    | num n => simp
    | str s => simp
    | arr l => simp

theorem lookupKey_cleanMeta_labels (m : JObj) :
    lookupKey (cleanMeta m) "labels"
      = annResult (lookupKey m "labels") blockedLabelKeys := by
  unfold cleanMeta
  rw [lookupKey_emptyStep_self,
    lookupKey_emptyStep_ne (by decide : ("labels" : String) ≠ "annotations"),
    lookupKey_annStep_self,
    lookupKey_annStep_ne _ (by decide : ("labels" : String) ≠ "annotations"),
    lookupKey_eraseKeys_not_mem _ _ (by decide : "labels" ∉ metaFieldKeys)]
  unfold annResult
  cases hv : lookupKey m "labels" with
  | none => simp
  | some v =>
    cases v with
    | obj a =>
      by_cases hs : allStringValues a
      · simp only [hs, if_true]
        cases he : eraseKeys a blockedLabelKeys with
        | nil => simp
        | cons pr rest => simp
      · simp [hs]
    | null => simp
    | boolVal b => simp
    | num n => simp
    | str s => simp
    | arr l => simp

theorem cleanFldState_of_annResult {n : JObj} {fld : String}
    {keys : List String} {r : Option JValue}
    (h : lookupKey n fld = annResult r keys) :
    cleanFldState n fld keys := by
  cases r with
  | none => exact Or.inl h
  | some v =>
    cases v with
    | obj a =>
      by_cases hs : allStringValues a
      · simp only [annResult, hs, if_true] at h
        cases he : eraseKeys a keys with
        | nil =>
          rw [he] at h
          exact Or.inl h
        | cons pr rest =>
          rw [he] at h
          refine Or.inr ⟨pr :: rest, h, by simp, ?_, ?_⟩
          · rw [← he]
            exact allStringValues_eraseKeys keys hs
          · rw [← he]
            exact eraseKeys_of_lookupKey_none
              (fun k hk => lookupKey_eraseKeys_mem keys a hk)
      · simp only [annResult, hs, if_false] at h
        exact Or.inl h
    | null => exact Or.inl h
    | boolVal b => exact Or.inl h
    | num n' => exact Or.inl h
    | str s => exact Or.inl h
    | arr l => exact Or.inl h

theorem annStep_of_cleanFldState {n : JObj} {fld : String} {keys : List String}
    (h : cleanFldState n fld keys) : annStep n fld keys = n := by
  rcases h with h | ⟨b, hb, hne, hs, he⟩
  · simp only [annStep, h]
    exact eraseKey_of_lookupKey_none h
  · simp only [annStep, hb, hs, if_true]
    rw [he]
    exact setKey_of_lookupKey_eq hb

theorem emptyStep_of_cleanFldState {n : JObj} {fld : String} {keys : List String}
    (h : cleanFldState n fld keys) : emptyStep n fld = n := by
  rcases h with h | ⟨b, hb, hne, _, _⟩
  · simp only [emptyStep, h]
  · cases b with
    | nil => exact absurd rfl hne
    | cons pr rest => simp only [emptyStep, hb]

theorem cleanMeta_idem (m : JObj) : cleanMeta (cleanMeta m) = cleanMeta m := by
  have sA : cleanFldState (cleanMeta m) "annotations" blockedAnnotationKeys :=
    cleanFldState_of_annResult (lookupKey_cleanMeta_annotations m)
  have sL : cleanFldState (cleanMeta m) "labels" blockedLabelKeys :=
    cleanFldState_of_annResult (lookupKey_cleanMeta_labels m)
  have hsix : eraseKeys (cleanMeta m) metaFieldKeys = cleanMeta m :=
    eraseKeys_of_lookupKey_none (fun k hk => lookupKey_cleanMeta_metaKey hk)
  generalize hn : cleanMeta m = n at sA sL hsix ⊢
  conv_lhs => rw [cleanMeta]
  rw [hsix, annStep_of_cleanFldState sA, annStep_of_cleanFldState sL,
    emptyStep_of_cleanFldState sA, emptyStep_of_cleanFldState sL]

/-! Lookups on the sanitizer's output, at the top level. -/

theorem lookupKey_cleanResource_status (x : JObj) :
    lookupKey (cleanResource x) "status" = none := by
  by_cases hobj : ∃ m, lookupKey x "metadata" = some (JValue.obj m)
  · obtain ⟨m, hv⟩ := hobj
    rw [cleanResource_eq_obj hv,
      lookupKey_setKey_ne _ _ (by decide : ("status" : String) ≠ "metadata")]
    exact lookupKey_eraseKey_self x "status"
  · push_neg at hobj
    rw [cleanResource_eq_not_obj hobj]
    exact lookupKey_eraseKey_self x "status"

theorem lookupKey_cleanResource_metadata (x : JObj) :
    lookupKey (cleanResource x) "metadata" =
      (match lookupKey x "metadata" with
       | some (JValue.obj m) => some (JValue.obj (cleanMeta m))
       | r => r) := by
  by_cases hobj : ∃ m, lookupKey x "metadata" = some (JValue.obj m)
  · obtain ⟨m, hv⟩ := hobj
    rw [cleanResource_eq_obj hv, hv, lookupKey_setKey_self]
  · push_neg at hobj
    rw [cleanResource_eq_not_obj hobj,
      lookupKey_eraseKey_ne x (by decide : ("metadata" : String) ≠ "status")]
    cases hv : lookupKey x "metadata" with
    | none => simp
    | some v =>
      cases v with
      | obj m => exact absurd hv (hobj m)
      | null => simp
      | boolVal b => simp
      | num n => simp
      | str s => simp
      | arr l => simp

theorem lookupKey_cleanResource_other (x : JObj) {k : String}
    (h1 : k ≠ "status") (h2 : k ≠ "metadata") :
    lookupKey (cleanResource x) k = lookupKey x k := by
  by_cases hobj : ∃ m, lookupKey x "metadata" = some (JValue.obj m)
  · obtain ⟨m, hv⟩ := hobj
    rw [cleanResource_eq_obj hv, lookupKey_setKey_ne _ _ h2,
      lookupKey_eraseKey_ne x h1]
  · push_neg at hobj
    rw [cleanResource_eq_not_obj hobj, lookupKey_eraseKey_ne x h1]

theorem annResult_lookup {r : Option JValue} {keys : List String} {k : String}
    (hk : k ∈ keys) :
    (match annResult r keys with
     | some (JValue.obj b) => lookupKey b k
     | _ => none) = none := by
  cases r with
  | none => rfl
  | some v =>
    cases v with
    | obj a =>
      by_cases hs : allStringValues a
      · simp only [annResult, hs, if_true]
        cases he : eraseKeys a keys with
        | nil => rfl
        | cons pr rest =>
          show lookupKey (pr :: rest) k = none
          rw [← he]
          exact lookupKey_eraseKeys_mem keys a hk
      · simp [annResult, hs]
    | null => rfl
    | boolVal b => rfl
    | num n => rfl
    | str s => rfl
    | arr l => rfl

theorem getNested_cleanResource_metaKey (x : JObj) {k : String}
    (hk : k ∈ metaFieldKeys) :
    getNested (cleanResource x) ["metadata", k] = none := by
  rw [getNested_pair, lookupKey_cleanResource_metadata]
  cases hv : lookupKey x "metadata" with
  | none => simp
  | some v =>
    cases v with
    | obj m => simpa using lookupKey_cleanMeta_metaKey hk
    | null => simp
    | boolVal b => simp
    | num n => simp
    | str s => simp
    | arr l => simp

theorem getNested_cleanResource_annKey (x : JObj) {k : String}
    (hk : k ∈ blockedAnnotationKeys) :
    getNested (cleanResource x) ["metadata", "annotations", k] = none := by
  rw [getNested_cons_cons, lookupKey_cleanResource_metadata]
  cases hv : lookupKey x "metadata" with
  | none => simp
  | some v =>
    cases v with
    | obj m =>
      simp only
      rw [getNested_pair, lookupKey_cleanMeta_annotations]
      exact annResult_lookup hk
    | null => simp
    | boolVal b => simp
    | num n => simp
    | str s => simp
    | arr l => simp

theorem getNested_cleanResource_labKey (x : JObj) {k : String}
    (hk : k ∈ blockedLabelKeys) :
    getNested (cleanResource x) ["metadata", "labels", k] = none := by
  rw [getNested_cons_cons, lookupKey_cleanResource_metadata]
  cases hv : lookupKey x "metadata" with
  | none => simp
  | some v =>
    cases v with
    | obj m =>
      simp only
      rw [getNested_pair, lookupKey_cleanMeta_labels]
      exact annResult_lookup hk
    | null => simp
    | boolVal b => simp
    | num n => simp
    | str s => simp
    | arr l => simp

/-- Claim C1: for every captured object, the sanitized variant produced by
`cleanResource` contains none of `metadata.resourceVersion`,
`metadata.uid`, `metadata.selfLink`, `metadata.creationTimestamp`,
`metadata.generation`, `metadata.managedFields`, none of the `status`
subtree, and none of the blocked annotation keys
(`objectset.rio.cattle.io/applied`, `objectset.rio.cattle.io/id`,
`objectset.rio.cattle.io/hash`, `cattle.io.timestamp`) or the blocked
label key (`objectset.rio.cattle.io/hash`). -/
theorem claimC1_sanitized_free_of_blocked (x : JObj) :
    getNested (cleanResource x) ["status"] = none ∧
    getNested (cleanResource x) ["metadata", "resourceVersion"] = none ∧
    getNested (cleanResource x) ["metadata", "uid"] = none ∧
    getNested (cleanResource x) ["metadata", "selfLink"] = none ∧
    getNested (cleanResource x) ["metadata", "creationTimestamp"] = none ∧
    getNested (cleanResource x) ["metadata", "generation"] = none ∧
    getNested (cleanResource x) ["metadata", "managedFields"] = none ∧
    getNested (cleanResource x)
      ["metadata", "annotations", "objectset.rio.cattle.io/applied"] = none ∧
    getNested (cleanResource x)
      ["metadata", "annotations", "objectset.rio.cattle.io/id"] = none ∧
    getNested (cleanResource x)
      ["metadata", "annotations", "objectset.rio.cattle.io/hash"] = none ∧
    getNested (cleanResource x)
      ["metadata", "annotations", "cattle.io.timestamp"] = none ∧
    getNested (cleanResource x)
      ["metadata", "labels", "objectset.rio.cattle.io/hash"] = none := by
  refine ⟨?_, ?_, ?_, ?_, ?_, ?_, ?_, ?_, ?_, ?_, ?_, ?_⟩
  · rw [getNested_single]
    exact lookupKey_cleanResource_status x
  · exact getNested_cleanResource_metaKey x (by decide)
  · exact getNested_cleanResource_metaKey x (by decide)
  · exact getNested_cleanResource_metaKey x (by decide)
  · exact getNested_cleanResource_metaKey x (by decide)
  · exact getNested_cleanResource_metaKey x (by decide)
  · exact getNested_cleanResource_metaKey x (by decide)
  · exact getNested_cleanResource_annKey x (by decide)
  · exact getNested_cleanResource_annKey x (by decide)
  · exact getNested_cleanResource_annKey x (by decide)
  · exact getNested_cleanResource_annKey x (by decide)
  · exact getNested_cleanResource_labKey x (by decide)

/-- Claim C5: sanitization is idempotent — for every captured object `x`,
`cleanResource (cleanResource x)` is structurally equal to
`cleanResource x`. -/
theorem claimC5_cleanResource_idem (x : JObj) :
    cleanResource (cleanResource x) = cleanResource x := by
  by_cases hobj : ∃ m, lookupKey x "metadata" = some (JValue.obj m)
  · obtain ⟨m, hv⟩ := hobj
    have hx := cleanResource_eq_obj hv
    have hm : lookupKey (cleanResource x) "metadata"
        = some (JValue.obj (cleanMeta m)) := by
      rw [hx]
      exact lookupKey_setKey_self _ _ _
    rw [cleanResource_eq_obj hm, cleanMeta_idem]
    conv_lhs => rw [hx]
    rw [eraseKey_setKey_ne _ _ (by decide : ("metadata" : String) ≠ "status"),
      eraseKey_eraseKey_self, ← hx]
    exact setKey_of_lookupKey_eq hm
  · push_neg at hobj
    have hx := cleanResource_eq_not_obj hobj
    have hobj2 : ∀ m, lookupKey (cleanResource x) "metadata"
        ≠ some (JValue.obj m) := by
      intro m
      rw [hx, lookupKey_eraseKey_ne x (by decide : ("metadata" : String) ≠ "status")]
      exact hobj m
    rw [cleanResource_eq_not_obj hobj2, hx, eraseKey_eraseKey_self]

theorem lookupKey_none_of_all_ne {a : JObj} {k : String}
    (h : ∀ pr ∈ a, pr.1 ≠ k) : lookupKey a k = none := by
  induction a with
  | nil => rfl
  | cons pr rest ih =>
    obtain ⟨k', v⟩ := pr
    have hk : k' ≠ k := h (k', v) (List.mem_cons_self _ _)
    simp only [lookupKey, if_neg hk]
    exact ih (fun pr hpr => h pr (List.mem_cons_of_mem _ hpr))

theorem annResult_of_only_blocked {a : JObj} {keys : List String}
    (h : ∀ pr ∈ a, pr.1 ∈ keys) :
    annResult (some (JValue.obj a)) keys = none := by
  by_cases hs : allStringValues a
  · simp only [annResult, hs, if_true, eraseKeys_eq_nil_of_all_mem h]
  · simp [annResult, hs]

theorem cleanFldState_of_goodMapField {x m : JObj} {fld : String}
    {keys : List String}
    (hv : lookupKey x "metadata" = some (JValue.obj m))
    (h : goodMapField x fld keys = true) : cleanFldState m fld keys := by
  unfold goodMapField at h
  rw [getNested_pair, hv] at h
  have h2 : (match lookupKey m fld with
             | none => true
             | some (JValue.obj a) =>
               !a.isEmpty && allStringValues a &&
                 a.all (fun pr => !(keys.contains pr.1))
             | some _ => false) = true := h
  clear h
  rename' h2 => h
  cases hann : lookupKey m fld with
  | none => exact Or.inl hann
  | some v =>
    rw [hann] at h
    cases v with
    | obj a =>
      simp only [Bool.and_eq_true, List.all_eq_true] at h
      obtain ⟨⟨hne, hs⟩, hall⟩ := h
      refine Or.inr ⟨a, hann, ?_, hs, ?_⟩
      · intro hnil
        rw [hnil] at hne
        simp at hne
      · refine eraseKeys_of_lookupKey_none (fun k hk => ?_)
        refine lookupKey_none_of_all_ne (fun pr hpr hh => ?_)
        have := hall pr hpr
        rw [hh] at this
        simp [List.contains_eq_any_beq] at this
        exact absurd hk (by simpa using this)
    | null => cases h
    | boolVal b => cases h
    | num n => cases h
    | str s => cases h
    | arr l => cases h

/-- Claim C7: for every object whose `metadata.annotations` mapping
contains only blocked annotation keys, the sanitized object has no
`metadata.annotations` field at all — not an empty mapping — and likewise
for a `metadata.labels` mapping containing only the blocked label key. -/
theorem claimC7_only_blocked_removed_entirely (x : JObj) :
    (onlyBlockedKeys x "annotations" blockedAnnotationKeys = true →
      getNested (cleanResource x) ["metadata", "annotations"] = none) ∧
    (onlyBlockedKeys x "labels" blockedLabelKeys = true →
      getNested (cleanResource x) ["metadata", "labels"] = none) := by
  constructor
  · intro h
    unfold onlyBlockedKeys at h
    rw [getNested_pair] at h
    cases hv : lookupKey x "metadata" with
    | none => rw [hv] at h; cases h
    | some v =>
      rw [hv] at h
      cases v with
      | obj m =>
        have h2 : (match lookupKey m "annotations" with
                   | some (JValue.obj a) =>
                     a.all (fun pr => blockedAnnotationKeys.contains pr.1)
                   | _ => false) = true := h
        clear h
        rename' h2 => h
        rw [getNested_pair, lookupKey_cleanResource_metadata, hv]
        show lookupKey (cleanMeta m) "annotations" = none
        rw [lookupKey_cleanMeta_annotations]
        cases hann : lookupKey m "annotations" with
        | none => rfl
        | some w =>
          rw [hann] at h
          cases w with
          | obj a =>
            simp only [List.all_eq_true] at h
            refine annResult_of_only_blocked (fun pr hpr => ?_)
            have := h pr hpr
            simpa [List.contains_eq_any_beq, List.any_eq_true] using this
          | null => cases h
          | boolVal b => cases h
          | num n => cases h
          | str s => cases h
          | arr l => cases h
      | null => cases h
      | boolVal b => cases h
      | num n => cases h
      | str s => cases h
      | arr l => cases h
  · intro h
    unfold onlyBlockedKeys at h
    rw [getNested_pair] at h
    cases hv : lookupKey x "metadata" with
    | none => rw [hv] at h; cases h
    | some v =>
      rw [hv] at h
      cases v with
      | obj m =>
        have h2 : (match lookupKey m "labels" with
                   | some (JValue.obj a) =>
                     a.all (fun pr => blockedLabelKeys.contains pr.1)
                   | _ => false) = true := h
        clear h
        rename' h2 => h
        rw [getNested_pair, lookupKey_cleanResource_metadata, hv]
        show lookupKey (cleanMeta m) "labels" = none
        rw [lookupKey_cleanMeta_labels]
        cases hann : lookupKey m "labels" with
        | none => rfl
        | some w =>
          rw [hann] at h
          cases w with
          | obj a =>
            simp only [List.all_eq_true] at h
            refine annResult_of_only_blocked (fun pr hpr => ?_)
            have := h pr hpr
            simpa [List.contains_eq_any_beq, List.any_eq_true] using this
          | null => cases h
          | boolVal b => cases h
          | num n => cases h
          | str s => cases h
          | arr l => cases h
      | null => cases h
      | boolVal b => cases h
      | num n => cases h
      | str s => cases h
      | arr l => cases h

/-- Witness for claim C7 at a concrete object whose annotations hold two
blocked keys and whose labels hold the blocked label key: both fields are
gone after sanitization. -/
theorem claimC7_witness :
    onlyBlockedKeys onlyBlockedObject "annotations" blockedAnnotationKeys = true ∧
    onlyBlockedKeys onlyBlockedObject "labels" blockedLabelKeys = true ∧
    getNested (cleanResource onlyBlockedObject) ["metadata", "annotations"] = none ∧
    getNested (cleanResource onlyBlockedObject) ["metadata", "labels"] = none :=
  ⟨rfl, rfl,
    (claimC7_only_blocked_removed_entirely onlyBlockedObject).1 rfl,
    (claimC7_only_blocked_removed_entirely onlyBlockedObject).2 rfl⟩

/-- Counterexample to claim C6 as stated: `emptyAnnObject` contains none of
the blocked field paths and none of the blocked annotation or label keys
(its `metadata.annotations` is present, a mapping with no entries at all),
yet `cleanResource` is not a no-op on it — the empty annotations mapping is
removed by `removeEmptyFields`. -/
theorem claimC6_counterexample :
    lookupKey emptyAnnObject "status" = none ∧
    getNested emptyAnnObject ["metadata", "resourceVersion"] = none ∧
    getNested emptyAnnObject ["metadata", "uid"] = none ∧
    getNested emptyAnnObject ["metadata", "selfLink"] = none ∧
    getNested emptyAnnObject ["metadata", "creationTimestamp"] = none ∧
    getNested emptyAnnObject ["metadata", "generation"] = none ∧
    getNested emptyAnnObject ["metadata", "managedFields"] = none ∧
    getNested emptyAnnObject
      ["metadata", "annotations", "objectset.rio.cattle.io/applied"] = none ∧
    getNested emptyAnnObject
      ["metadata", "annotations", "objectset.rio.cattle.io/id"] = none ∧
    getNested emptyAnnObject
      ["metadata", "annotations", "objectset.rio.cattle.io/hash"] = none ∧
    getNested emptyAnnObject
      ["metadata", "annotations", "cattle.io.timestamp"] = none ∧
    getNested emptyAnnObject
      ["metadata", "labels", "objectset.rio.cattle.io/hash"] = none ∧
    getNested emptyAnnObject ["metadata", "annotations"]
      = some (JValue.obj []) ∧
    cleanResource emptyAnnObject ≠ emptyAnnObject := by
  refine ⟨rfl, rfl, rfl, rfl, rfl, rfl, rfl, rfl, rfl, rfl, rfl, rfl, rfl, ?_⟩
  intro h
  have h2 : getNested (cleanResource emptyAnnObject) ["metadata", "annotations"]
      = getNested emptyAnnObject ["metadata", "annotations"] := by rw [h]
  exact Option.noConfusion h2

/-- Amended claim C6: for every captured object that contains none of the
blocked field paths and none of the blocked annotation or label keys, and
whose `metadata.annotations` and `metadata.labels` fields — when
present — are non-empty mappings with only string values, `cleanResource`
leaves the object structurally equal to its input. -/
theorem claimC6_amended_noop (x : JObj)
    (hst : lookupKey x "status" = none)
    (hrv : getNested x ["metadata", "resourceVersion"] = none)
    (huid : getNested x ["metadata", "uid"] = none)
    (hsl : getNested x ["metadata", "selfLink"] = none)
    (hct : getNested x ["metadata", "creationTimestamp"] = none)
    (hgen : getNested x ["metadata", "generation"] = none)
    (hmf : getNested x ["metadata", "managedFields"] = none)
    (ha : goodMapField x "annotations" blockedAnnotationKeys = true)
    (hl : goodMapField x "labels" blockedLabelKeys = true) :
    cleanResource x = x := by
  by_cases hobj : ∃ m, lookupKey x "metadata" = some (JValue.obj m)
  · obtain ⟨m, hv⟩ := hobj
    have sA := cleanFldState_of_goodMapField hv ha
    have sL := cleanFldState_of_goodMapField hv hl
    have hsix : eraseKeys m metaFieldKeys = m := by
      refine eraseKeys_of_lookupKey_none (fun k hk => ?_)
      rw [getNested_pair, hv] at hrv huid hsl hct hgen hmf
      simp only [metaFieldKeys, List.mem_cons, List.not_mem_nil, or_false] at hk
      rcases hk with rfl | rfl | rfl | rfl | rfl | rfl
      · exact hrv
      · exact huid
      · exact hsl
      · exact hct
      · exact hgen
      · exact hmf
    have hmeta : cleanMeta m = m := by
      unfold cleanMeta
      rw [hsix, annStep_of_cleanFldState sA, annStep_of_cleanFldState sL,
        emptyStep_of_cleanFldState sA, emptyStep_of_cleanFldState sL]
    rw [cleanResource_eq_obj hv, hmeta, eraseKey_of_lookupKey_none hst]
    exact setKey_of_lookupKey_eq hv
  · push_neg at hobj
    rw [cleanResource_eq_not_obj hobj]
    exact eraseKey_of_lookupKey_none hst

/-- Witness for the amended claim C6: sanitizing a benign object — no
blocked fields, non-empty all-string annotations and labels without
blocked keys — leaves it unchanged. -/
theorem claimC6_witness : cleanResource benignObject = benignObject :=
  claimC6_amended_noop benignObject rfl rfl rfl rfl rfl rfl rfl rfl rfl

/-! Frame property of the sanitizer (claim C10). -/

theorem getNested_congr_head {m n : JObj} (f : String) (fs : List String)
    (h : lookupKey n f = lookupKey m f) :
    getNested n (f :: fs) = getNested m (f :: fs) := by
  cases fs with
  | nil => rw [getNested_single, getNested_single, h]
  | cons g gs => rw [getNested_cons_cons, getNested_cons_cons, h]

theorem getNested_none_of_lookupKey_none {n : JObj} {f : String}
    (fs : List String) (h : lookupKey n f = none) :
    getNested n (f :: fs) = none := by
  cases fs with
  | nil => rw [getNested_single, h]
  | cons g gs => rw [getNested_cons_cons, h]

theorem cleanMeta_frame {x m : JObj}
    (hv : lookupKey x "metadata" = some (JValue.obj m))
    (fs : List String) (hex : exceptMetaAmd x fs = false) :
    getNested (cleanMeta m) fs = getNested m fs := by
  cases fs with
  | nil => rfl
  | cons g gs =>
    simp only [exceptMetaAmd, Bool.or_eq_false_iff] at hex
    obtain ⟨⟨hcont, hann⟩, hlab⟩ := hex
    have hgmem : g ∉ metaFieldKeys := by
      intro hmem
      rw [List.contains_eq_any_beq] at hcont
      simp [List.any_eq_true] at hcont
      exact hcont g hmem rfl
    by_cases hga : g = "annotations"
    · subst hga
      simp only [beq_self_eq_true, Bool.true_and] at hann
      cases gs with
      | nil => exact absurd hann (by simp [exceptMapFieldAmd])
      | cons k ks =>
        simp only [exceptMapFieldAmd, Bool.or_eq_false_iff] at hann
        obtain ⟨⟨hkc, hbe⟩, hrw⟩ := hann
        have hknm : k ∉ blockedAnnotationKeys := by
          intro hmem
          rw [List.contains_eq_any_beq] at hkc
          simp [List.any_eq_true] at hkc
          exact hkc k hmem rfl
        rw [getNested_cons_cons, getNested_cons_cons,
          lookupKey_cleanMeta_annotations]
        have hbe2 : (match lookupKey m "annotations" with
                     | some (JValue.obj a) =>
                       (eraseKeys a blockedAnnotationKeys).isEmpty
                     | _ => false) = false := by
          unfold becomesEmptyAfter at hbe
          rw [getNested_pair, hv] at hbe
          exact hbe
        have hrw2 : (match lookupKey m "annotations" with
                     | some (JValue.obj a) => !allStringValues a
                     | some _ => true
                     | none => false) = false := by
          unfold removedWholesale at hrw
          rw [getNested_pair, hv] at hrw
          exact hrw
        cases hr : lookupKey m "annotations" with
        | none => rfl
        | some v =>
          cases v with
          | obj a =>
            rw [hr] at hbe2 hrw2
            have hs : allStringValues a = true := by
              simpa using hrw2
            have hne : eraseKeys a blockedAnnotationKeys ≠ [] := by
              simpa using hbe2
            simp only [annResult, hs, if_true]
            cases he : eraseKeys a blockedAnnotationKeys with
            | nil => exact absurd he hne
            | cons pr rest =>
              show getNested (pr :: rest) (k :: ks) = getNested a (k :: ks)
              rw [← he]
              exact getNested_congr_head k ks
                (lookupKey_eraseKeys_not_mem _ a hknm)
          | null => rw [hr] at hrw2; cases hrw2
          | boolVal b => rw [hr] at hrw2; cases hrw2
          | num n => rw [hr] at hrw2; cases hrw2
          | str s => rw [hr] at hrw2; cases hrw2
          | arr l => rw [hr] at hrw2; cases hrw2
    · by_cases hgl : g = "labels"
      · subst hgl
        simp only [beq_self_eq_true, Bool.true_and] at hlab
        cases gs with
        | nil => exact absurd hlab (by simp [exceptMapFieldAmd])
        | cons k ks =>
          simp only [exceptMapFieldAmd, Bool.or_eq_false_iff] at hlab
          obtain ⟨⟨hkc, hbe⟩, hrw⟩ := hlab
          have hknm : k ∉ blockedLabelKeys := by
            intro hmem
            rw [List.contains_eq_any_beq] at hkc
            simp [List.any_eq_true] at hkc
            exact hkc k hmem rfl
          rw [getNested_cons_cons, getNested_cons_cons,
            lookupKey_cleanMeta_labels]
          have hbe2 : (match lookupKey m "labels" with
                       | some (JValue.obj a) =>
                         (eraseKeys a blockedLabelKeys).isEmpty
                       | _ => false) = false := by
            unfold becomesEmptyAfter at hbe
            rw [getNested_pair, hv] at hbe
            exact hbe
          have hrw2 : (match lookupKey m "labels" with
                       | some (JValue.obj a) => !allStringValues a
                       | some _ => true
                       | none => false) = false := by
            unfold removedWholesale at hrw
            rw [getNested_pair, hv] at hrw
            exact hrw
          cases hr : lookupKey m "labels" with
          | none => rfl
          | some v =>
            cases v with
            | obj a =>
              rw [hr] at hbe2 hrw2
              have hs : allStringValues a = true := by
                simpa using hrw2
              have hne : eraseKeys a blockedLabelKeys ≠ [] := by
                simpa using hbe2
              simp only [annResult, hs, if_true]
              cases he : eraseKeys a blockedLabelKeys with
              | nil => exact absurd he hne
              | cons pr rest =>
                show getNested (pr :: rest) (k :: ks) = getNested a (k :: ks)
                rw [← he]
                exact getNested_congr_head k ks
                  (lookupKey_eraseKeys_not_mem _ a hknm)
            | null => rw [hr] at hrw2; cases hrw2
            | boolVal b => rw [hr] at hrw2; cases hrw2
            | num n => rw [hr] at hrw2; cases hrw2
            | str s => rw [hr] at hrw2; cases hrw2
            | arr l => rw [hr] at hrw2; cases hrw2
      · exact getNested_congr_head g gs
          (lookupKey_cleanMeta_other hgmem hga hgl)

theorem cleanMeta_mono {m : JObj} (fs : List String)
    (h : getNested m fs = none) : getNested (cleanMeta m) fs = none := by
  cases fs with
  | nil => rfl
  | cons g gs =>
    by_cases hgm : g ∈ metaFieldKeys
    · exact getNested_none_of_lookupKey_none gs (lookupKey_cleanMeta_metaKey hgm)
    · by_cases hga : g = "annotations"
      · subst hga
        cases hr : lookupKey m "annotations" with
        | none =>
          refine getNested_none_of_lookupKey_none gs ?_
          rw [lookupKey_cleanMeta_annotations, hr]
          rfl
        | some v =>
          cases v with
          | obj a =>
            cases gs with
            | nil =>
              rw [getNested_single, hr] at h
              cases h
            | cons k ks =>
              rw [getNested_cons_cons, hr] at h
              rw [getNested_cons_cons, lookupKey_cleanMeta_annotations, hr]
              by_cases hs : allStringValues a
              · simp only [annResult, hs, if_true]
                cases he : eraseKeys a blockedAnnotationKeys with
                | nil => rfl
                | cons pr rest =>
                  show getNested (pr :: rest) (k :: ks) = none
                  rw [← he]
                  by_cases hk : k ∈ blockedAnnotationKeys
                  · exact getNested_none_of_lookupKey_none ks
                      (lookupKey_eraseKeys_mem _ a hk)
                  · rw [getNested_congr_head k ks
                      (lookupKey_eraseKeys_not_mem _ a hk)]
                    exact h
              · simp [annResult, hs]
          | null =>
            refine getNested_none_of_lookupKey_none gs ?_
            rw [lookupKey_cleanMeta_annotations, hr]
            rfl
          | boolVal b =>
            refine getNested_none_of_lookupKey_none gs ?_
            rw [lookupKey_cleanMeta_annotations, hr]
            rfl
          | num n =>
            refine getNested_none_of_lookupKey_none gs ?_
            rw [lookupKey_cleanMeta_annotations, hr]
            rfl
          | str s =>
            refine getNested_none_of_lookupKey_none gs ?_
            rw [lookupKey_cleanMeta_annotations, hr]
            rfl
          | arr l =>
            refine getNested_none_of_lookupKey_none gs ?_
            rw [lookupKey_cleanMeta_annotations, hr]
            rfl
      · by_cases hgl : g = "labels"
        · subst hgl
          cases hr : lookupKey m "labels" with
          | none =>
            refine getNested_none_of_lookupKey_none gs ?_
            rw [lookupKey_cleanMeta_labels, hr]
            rfl
          | some v =>
            cases v with
            | obj a =>
              cases gs with
              | nil =>
                rw [getNested_single, hr] at h
                cases h
              | cons k ks =>
                rw [getNested_cons_cons, hr] at h
                rw [getNested_cons_cons, lookupKey_cleanMeta_labels, hr]
                by_cases hs : allStringValues a
                · simp only [annResult, hs, if_true]
                  cases he : eraseKeys a blockedLabelKeys with
                  | nil => rfl
                  | cons pr rest =>
                    show getNested (pr :: rest) (k :: ks) = none
                    rw [← he]
                    by_cases hk : k ∈ blockedLabelKeys
                    · exact getNested_none_of_lookupKey_none ks
                        (lookupKey_eraseKeys_mem _ a hk)
                    · rw [getNested_congr_head k ks
                        (lookupKey_eraseKeys_not_mem _ a hk)]
                      exact h
                · simp [annResult, hs]
            | null =>
              refine getNested_none_of_lookupKey_none gs ?_
              rw [lookupKey_cleanMeta_labels, hr]
              rfl
            | boolVal b =>
              refine getNested_none_of_lookupKey_none gs ?_
              rw [lookupKey_cleanMeta_labels, hr]
              rfl
            | num n =>
              refine getNested_none_of_lookupKey_none gs ?_
              rw [lookupKey_cleanMeta_labels, hr]
              rfl
            | str s =>
              refine getNested_none_of_lookupKey_none gs ?_
              rw [lookupKey_cleanMeta_labels, hr]
              rfl
            | arr l =>
              refine getNested_none_of_lookupKey_none gs ?_
              rw [lookupKey_cleanMeta_labels, hr]
              rfl
        · rw [getNested_congr_head g gs (lookupKey_cleanMeta_other hgm hga hgl)]
          exact h

/-- Amended claim C10 (frame property of sanitization): for every captured
object and every field path outside the exception set — paths through
`status`, through a blocked metadata field, through a blocked
annotation/label key, the containers of those paths, paths below an
annotations/labels mapping that becomes empty after blocked-key removal,
and (the amendment) paths below an annotations/labels field that is
removed wholesale because it is not an all-string mapping — the value
reached after `cleanResource` equals the value before; moreover
`cleanResource` never adds a field that was absent from its input. -/
theorem claimC10_amended_frame (x : JObj) (p : List String) :
    (exceptPathAmd x p = false →
      getNested (cleanResource x) p = getNested x p) ∧
    (getNested x p = none → getNested (cleanResource x) p = none) := by
  cases p with
  | nil => exact ⟨fun hex => Bool.noConfusion hex, fun _ => rfl⟩
  | cons f fs =>
    by_cases hf1 : f = "status"
    · subst hf1
      constructor
      · intro hex
        simp [exceptPathAmd] at hex
      · intro _
        exact getNested_none_of_lookupKey_none fs (lookupKey_cleanResource_status x)
    · by_cases hf2 : f = "metadata"
      · subst hf2
        by_cases hobj : ∃ m, lookupKey x "metadata" = some (JValue.obj m)
        · obtain ⟨m, hv⟩ := hobj
          have hcm : lookupKey (cleanResource x) "metadata"
              = some (JValue.obj (cleanMeta m)) := by
            rw [lookupKey_cleanResource_metadata, hv]
          constructor
          · intro hex
            simp only [exceptPathAmd, Bool.or_eq_false_iff] at hex
            have hmf : exceptMetaAmd x fs = false := by
              have h2 := hex.2
              simpa using h2
            cases fs with
            | nil => exact absurd hmf (by simp [exceptMetaAmd])
            | cons g gs =>
              rw [getNested_cons_cons, getNested_cons_cons, hcm, hv]
              exact cleanMeta_frame hv (g :: gs) hmf
          · intro h
            cases fs with
            | nil =>
              rw [getNested_single, hv] at h
              cases h
            | cons g gs =>
              rw [getNested_cons_cons, hv] at h
              rw [getNested_cons_cons, hcm]
              exact cleanMeta_mono (g :: gs) h
        · push_neg at hobj
          have heq : lookupKey (cleanResource x) "metadata"
              = lookupKey x "metadata" := by
            rw [cleanResource_eq_not_obj hobj]
            exact lookupKey_eraseKey_ne x
              (by decide : ("metadata" : String) ≠ "status")
          exact ⟨fun _ => getNested_congr_head _ fs heq,
            fun h => by rw [getNested_congr_head _ fs heq]; exact h⟩
      · have heq := lookupKey_cleanResource_other x hf1 hf2
        exact ⟨fun _ => getNested_congr_head f fs heq,
          fun h => by rw [getNested_congr_head f fs heq]; exact h⟩

/-- Counterexample to claim C10 as stated: the path
`metadata.annotations.replicas` of `numAnnObject` extends none of the
blocked paths or blocked keys, and its annotations mapping does not become
empty by blocked-key removal, so the claim requires its value to be
unchanged; yet `cleanResource` removes the entire annotations field (the
mapping holds a non-string value, so the library getter returns nil and
the setter deletes the field), and the value at that path goes from `5` to
absent. -/
theorem claimC10_counterexample :
    exceptPathOrig numAnnObject ["metadata", "annotations", "replicas"]
      = false ∧
    getNested numAnnObject ["metadata", "annotations", "replicas"]
      = some (JValue.num 5) ∧
    getNested (cleanResource numAnnObject)
      ["metadata", "annotations", "replicas"] = none :=
  ⟨rfl, rfl, rfl⟩

/-- Witness for the amended claim C10 at concrete paths of a captured
Deployment: the unblocked paths `kind` and `metadata.name` keep their
values, and the absent path `spec` stays absent. -/
theorem claimC10_witness :
    exceptPathAmd webDeployment ["kind"] = false ∧
    getNested (cleanResource webDeployment) ["kind"]
      = getNested webDeployment ["kind"] ∧
    exceptPathAmd webDeployment ["metadata", "name"] = false ∧
    getNested (cleanResource webDeployment) ["metadata", "name"]
      = getNested webDeployment ["metadata", "name"] ∧
    getNested webDeployment ["spec"] = none ∧
    getNested (cleanResource webDeployment) ["spec"] = none :=
  ⟨rfl, (claimC10_amended_frame webDeployment ["kind"]).1 rfl,
    rfl, (claimC10_amended_frame webDeployment ["metadata", "name"]).1 rfl,
    rfl, (claimC10_amended_frame webDeployment ["spec"]).2 rfl⟩

/-- Claim C2: in the per-object loop, the write at the original-variant
path carries the object exactly as fetched, and it is the write
immediately preceding the sanitized-variant write of the same object — so
although `cleanResource` mutates the very same object in place, the
original file's content is unaffected by the sanitization. -/
theorem claimC2_original_written_as_fetched (origDir modDir : String)
    (items : List (String × JObj)) (i : Nat) (h : i < items.length) :
    (writeTrace origDir modDir items).get? (2 * i)
      = some ⟨yamlPath origDir (items.get ⟨i, h⟩).1, (items.get ⟨i, h⟩).2⟩ ∧
    (writeTrace origDir modDir items).get? (2 * i + 1)
      = some ⟨yamlPath modDir (items.get ⟨i, h⟩).1,
          cleanResource (items.get ⟨i, h⟩).2⟩ := by
  induction items generalizing i with
  | nil => cases h
  | cons it rest ih =>
    obtain ⟨name, item⟩ := it
    cases i with
    | zero => exact ⟨rfl, rfl⟩
    | succ j =>
      have hj : j < rest.length := Nat.lt_of_succ_lt_succ h
      rw [Nat.mul_succ]
      exact ih j hj

/-- Witness for claim C2 at a one-object list: the first write is the
original Deployment as fetched, the second the sanitized variant. -/
theorem claimC2_witness :
    0 < ([("web", webDeployment)] : List (String × JObj)).length ∧
    (writeTrace "resources/original/ns1/deployments"
        "resources/modified/ns1/deployments" [("web", webDeployment)]).get? 0
      = some ⟨yamlPath "resources/original/ns1/deployments" "web",
          webDeployment⟩ ∧
    (writeTrace "resources/original/ns1/deployments"
        "resources/modified/ns1/deployments" [("web", webDeployment)]).get? 1
      = some ⟨yamlPath "resources/modified/ns1/deployments" "web",
          cleanResource webDeployment⟩ := by
  refine ⟨by decide, ?_, ?_⟩
  · exact (claimC2_original_written_as_fetched _ _ [("web", webDeployment)]
      0 (by decide)).1
  · exact (claimC2_original_written_as_fetched _ _ [("web", webDeployment)]
      0 (by decide)).2

/-- Claim C3 (divergence evidence): with namespaces `ns1, ns2` where
creating `resources/original/ns1` fails, the walk logs the failure but
skips nothing: it still saves the Namespace object of `ns1` and processes
its resource kinds (targeting the directory it failed to create), and it
does continue to `ns2`.  The `continue` at main.go:131 is the last
statement of the two-element directory loop body, so it cannot skip the
namespace's remaining work. -/
theorem claimC3_mkdir_failure_not_skipped :
    runWalk failNs1Orig ["deployments"] "resources/original"
        "resources/modified" ["ns1", "ns2"] =
      [WalkAct.mkdirAttempt "resources/original/ns1" false,
       WalkAct.logDirError "ns1",
       WalkAct.mkdirAttempt "resources/modified/ns1" true,
       WalkAct.saveNamespaceRes "ns1",
       WalkAct.processKind "ns1" "deployments",
       WalkAct.mkdirAttempt "resources/original/ns2" true,
       WalkAct.mkdirAttempt "resources/modified/ns2" true,
       WalkAct.saveNamespaceRes "ns2",
       WalkAct.processKind "ns2" "deployments"] := by decide

/-- Claim C4 (divergence evidence): whenever the single `file.Read` call
returns one byte less than the file holds — which the Linux kernel forces
for every file of more than `linuxReadMax = 2147479552` bytes, since one
`read(2)` transfers at most that much and the source never retries nor
checks the returned count — the upload still reports success and sends
Content-Type `application/zip`, but the PUT body is not the file's byte
content: its last byte is the zero left over from
`make([]byte, fileSize)` instead of the file's final byte. -/
theorem claimC4_short_read_body_differs (n : Nat) :
    uploadUsingPAR (shortReadEnv n) = UploadOutcome.ok ∧
    (buildPutRequest (shortReadEnv n)).contentType = "application/zip" ∧
    (buildPutRequest (shortReadEnv n)).body ≠ (shortReadEnv n).content := by
  refine ⟨rfl, rfl, ?_⟩
  intro hbody
  have hb : (buildPutRequest (shortReadEnv n)).body
      = List.replicate n 1 ++ [0] := by
    simp only [buildPutRequest, requestBody, shortReadEnv]
    rw [List.length_replicate, Nat.add_sub_cancel_left,
      List.replicate_succ' n (1 : Nat),
      List.take_left' (List.length_replicate n (1 : Nat))]
    rfl
  have hc : (shortReadEnv n).content = List.replicate n 1 ++ [1] :=
    List.replicate_succ' n (1 : Nat)
  rw [hb, hc] at hbody
  have h01 : ([0] : List Nat) = [1] := List.append_cancel_left hbody
  simp at h01

/-- Claim C4 at the concrete Linux bound: the divergence instantiated for
a 2147479553-byte file, whose single read returns `0x7ffff000` bytes. -/
theorem claimC4_witness :
    uploadUsingPAR (shortReadEnv linuxReadMax) = UploadOutcome.ok ∧
    (buildPutRequest (shortReadEnv linuxReadMax)).contentType
      = "application/zip" ∧
    (buildPutRequest (shortReadEnv linuxReadMax)).body
      ≠ (shortReadEnv linuxReadMax).content :=
  claimC4_short_read_body_differs linuxReadMax

/-- Claim C8: the upload reports success exactly when the URL parses, the
file exists and is readable, the transport completes, and the response
status code is 200 or 201; every other status code — 500, 204, any other
2xx — and every earlier failure yields an error. -/
theorem claimC8_success_iff_200_or_201 (env : UploadEnv) :
    uploadUsingPAR env = UploadOutcome.ok ↔
      (env.urlParses = true ∧ env.fileExists = true ∧ env.openOk = true ∧
       env.statOk = true ∧ env.readErr = false ∧ env.transportOk = true ∧
       (env.statusCode = 200 ∨ env.statusCode = 201)) := by
  obtain ⟨up, fe, oo, so, c, rc, re, tp, sc⟩ := env
  cases up <;> cases fe <;> cases oo <;> cases so <;> cases re <;> cases tp <;>
    by_cases hsc : sc = 200 ∨ sc = 201 <;>
      simp [uploadUsingPAR, hsc]

/-- Witness for claim C8: status 200 and 201 are reported as success,
status 500 and 204 as failure. -/
theorem claimC8_witness :
    uploadUsingPAR (statusEnv 200) = UploadOutcome.ok ∧
    uploadUsingPAR (statusEnv 201) = UploadOutcome.ok ∧
    uploadUsingPAR (statusEnv 500) ≠ UploadOutcome.ok ∧
    uploadUsingPAR (statusEnv 204) ≠ UploadOutcome.ok := by
  refine ⟨?_, ?_, ?_, ?_⟩
  · exact (claimC8_success_iff_200_or_201 (statusEnv 200)).mpr
      ⟨rfl, rfl, rfl, rfl, rfl, rfl, Or.inl rfl⟩
  · exact (claimC8_success_iff_200_or_201 (statusEnv 201)).mpr
      ⟨rfl, rfl, rfl, rfl, rfl, rfl, Or.inr rfl⟩
  · intro h
    have h5 := (claimC8_success_iff_200_or_201 (statusEnv 500)).mp h
    rcases h5.2.2.2.2.2.2 with h' | h'
    · exact absurd h' (by decide)
    · exact absurd h' (by decide)
  · intro h
    have h5 := (claimC8_success_iff_200_or_201 (statusEnv 204)).mp h
    rcases h5.2.2.2.2.2.2 with h' | h'
    · exact absurd h' (by decide)
    · exact absurd h' (by decide)

theorem trimPrefixL_twice_eq_drop {p sd : List Char}
    (h : (sd ++ [pathSep]).isPrefixOf p = true) :
    trimPrefixL (trimPrefixL p sd) [pathSep] = p.drop (sd.length + 1) := by
  have hpre : sd ++ [pathSep] <+: p := List.isPrefixOf_iff_prefix.mp h
  obtain ⟨t, ht⟩ := hpre
  subst ht
  have h1 : sd.isPrefixOf (sd ++ [pathSep] ++ t) = true := by
    rw [List.isPrefixOf_iff_prefix, List.append_assoc]
    exact List.prefix_append sd _
  have h2 : [pathSep].isPrefixOf ([pathSep] ++ t) = true := by
    rw [List.isPrefixOf_iff_prefix]
    exact List.prefix_append _ _
  have hdrop : (sd ++ [pathSep] ++ t).drop sd.length = [pathSep] ++ t := by
    rw [List.append_assoc]
    exact List.drop_left sd _
  have hdrop2 : (sd ++ [pathSep] ++ t).drop (sd.length + 1) = t := by
    refine List.drop_left' ?_
    simp
  have hinner : trimPrefixL (sd ++ [pathSep] ++ t) sd = [pathSep] ++ t := by
    rw [trimPrefixL, if_pos h1, hdrop]
  rw [hinner, trimPrefixL, if_pos h2, hdrop2]
  exact List.drop_left [pathSep] t

/-- Claim C9: `zipDirectory` adds exactly one archive entry per regular
file under `sourceDir`, with the deflate method (code 8) and the file's
content, named by its path relative to `sourceDir` — separator `/`, the
leading separator stripped; directories produce no entries. -/
theorem claimC9_zip_entries (sourceDir : List Char)
    (walkEntries : List FsEntry)
    (h : ∀ e ∈ walkEntries, e.isDir = false →
      (sourceDir ++ [pathSep]).isPrefixOf e.path = true) :
    zipDirectory sourceDir walkEntries =
      (walkEntries.filter (fun e => !e.isDir)).map
        (fun e => { entryName := e.path.drop (sourceDir.length + 1),
                    methodCode := 8, content := e.content }) := by
  induction walkEntries with
  | nil => rfl
  | cons e rest ih =>
    have hrest : ∀ e' ∈ rest, e'.isDir = false →
        (sourceDir ++ [pathSep]).isPrefixOf e'.path = true :=
      fun e' he' => h e' (List.mem_cons_of_mem _ he')
    cases hd : e.isDir with
    | true =>
      simp only [zipDirectory, List.filterMap_cons, hd, if_true,
        List.filter_cons, Bool.not_true, List.map]
      exact ih hrest
    | false =>
      have hname := trimPrefixL_twice_eq_drop (h e (List.mem_cons_self _ _) hd)
      simp only [zipDirectory, List.filterMap_cons, hd, if_false,
        List.filter_cons, Bool.not_false, List.map, hname]
      exact congrArg (List.cons _) (ih hrest)

/-- Witness for claim C9: a walk over source directory `r` visiting the
root directory itself, a subdirectory, and two regular files produces
exactly two deflate entries named by the relative paths. -/
theorem claimC9_witness :
    (∀ e ∈ ([⟨['r'], true, []⟩, ⟨['r', '/', 'a'], true, []⟩,
        ⟨['r', '/', 'a', '/', 'b'], false, [7, 8]⟩,
        ⟨['r', '/', 'c'], false, [9]⟩] : List FsEntry),
      e.isDir = false → ((['r'] : List Char) ++ [pathSep]).isPrefixOf e.path = true) ∧
    zipDirectory ['r']
      [⟨['r'], true, []⟩, ⟨['r', '/', 'a'], true, []⟩,
       ⟨['r', '/', 'a', '/', 'b'], false, [7, 8]⟩, ⟨['r', '/', 'c'], false, [9]⟩] =
      [{ entryName := ['a', '/', 'b'], methodCode := 8, content := [7, 8] },
       { entryName := ['c'], methodCode := 8, content := [9] }] := by
  refine ⟨by decide, ?_⟩
  rw [claimC9_zip_entries ['r'] _ (by decide)]
  decide

end K8sBackup
